import Mathlib

/-!
Shallow embedding of the ananthb/ringbuffer Go package (ringbuffer.go).

Bytes are modelled as natural numbers, the backing array as a list, and the
Go int fields as naturals (all index arithmetic in the source is on
non-negative values bounded by the buffer size, so no overflow or sign issue
arises).  Operations that can hit a Go run-time fault (index out of range, or
the modulo-by-zero at `(r.r + n) % r.size` when the size is zero) return
`Option`, with `none` standing for the fault; operations that cannot fault on
any reachable state are total.  The mutex is dropped: every public operation
is a single critical section, so the sequential semantics of the lock-free
body is the full semantics.
-/

namespace RingBuf

/-- The two error values of the package: `ErrFull` and `ErrEmpty`. -/
inductive GoErr where
  | errFull
  | errEmpty
deriving DecidableEq

/-- The `RingBuffer` struct: backing storage `buf`, its length `size`,
read cursor `r`, write cursor `w`, and the full flag.  (The mutex is not
modelled; see the file comment.) -/
structure RingBuffer where
  buf : List Nat
  size : Nat
  r : Nat
  w : Nat
  isFull : Bool
deriving DecidableEq

/-- `New(size)` allocates a zeroed buffer of the given size with both
cursors at zero and the full flag clear. -/
def New (size : Nat) : RingBuffer :=
  { buf := List.replicate size 0, size := size, r := 0, w := 0, isFull := false }

/-- Go `copy(dst[off:], src)`: overwrite `min (len src) (len dst - off)`
elements of `dst` starting at `off` with the first elements of `src`. -/
def goCopy (dst : List Nat) (off : Nat) (src : List Nat) : List Nat :=
  dst.take off ++ src.take (min src.length (dst.length - off))
    ++ dst.drop (off + min src.length (dst.length - off))

/-- `Read(p)` with `plen = len(p)`.  Returns the bytes copied into `p`
(their count is the Go return value `n`), the error, and the new state;
`none` models the modulo-by-zero fault of `(r.r + n) % r.size` when
`size = 0` and the buffer is marked full. -/
def Read (rb : RingBuffer) (plen : Nat) : Option (List Nat × Option GoErr × RingBuffer) :=
  if plen = 0 then some ([], none, rb)
  else if rb.w = rb.r ∧ rb.isFull = false then some ([], some GoErr.errEmpty, rb)
  else if rb.r < rb.w then
    let n := min (rb.w - rb.r) plen
    let data := (rb.buf.drop rb.r).take n
    if rb.size = 0 then none
    else some (data, none, { rb with r := (rb.r + n) % rb.size })
  else
    let n := min (rb.size - rb.r + rb.w) plen
    let data :=
      if rb.r + n ≤ rb.size then (rb.buf.drop rb.r).take n
      else (rb.buf.drop rb.r).take (rb.size - rb.r)
        ++ rb.buf.take (n - (rb.size - rb.r))
    if rb.size = 0 then none
    else some (data, none, { rb with r := (rb.r + n) % rb.size, isFull := false })

/-- `ReadByte()`: returns the byte, the error and the new state; `none`
models the out-of-range access `r.buf[r.r]` when `r ≥ len buf`. -/
def ReadByte (rb : RingBuffer) : Option (Nat × Option GoErr × RingBuffer) :=
  if rb.w = rb.r ∧ rb.isFull = false then some (0, some GoErr.errEmpty, rb)
  else
    match rb.buf.get? rb.r with
    | none => none
    | some b =>
      let r1 := rb.r + 1
      let r2 := if r1 = rb.size then 0 else r1
      some (b, none, { rb with r := r2, isFull := false })

/-- `Write(p)`: returns the count written, the error and the new state.
Its body never faults (every slice bound it forms is in range on every
state reachable from `New`), so it is total. -/
def Write (rb : RingBuffer) (p : List Nat) : Nat × Option GoErr × RingBuffer :=
  if p.length = 0 then (0, none, rb)
  else if rb.isFull then (0, some GoErr.errFull, rb)
  else
    let avail := if rb.r ≤ rb.w then rb.size - rb.w + rb.r else rb.r - rb.w
    let err : Option GoErr := if avail < p.length then some GoErr.errFull else none
    let q := if avail < p.length then p.take avail else p
    let n := q.length
    let bw :=
      if rb.r ≤ rb.w then
        let c1 := rb.size - rb.w
        if n ≤ c1 then (goCopy rb.buf rb.w q, rb.w + n)
        else (goCopy (goCopy rb.buf rb.w (q.take c1)) 0 (q.drop c1), n - c1)
      else (goCopy rb.buf rb.w q, rb.w + n)
    let w2 := if bw.2 = rb.size then 0 else bw.2
    let full2 := if w2 = rb.r then true else rb.isFull
    (n, err, { rb with buf := bw.1, w := w2, isFull := full2 })

/-- `WriteByte(c)`: returns the error and the new state; `none` models the
out-of-range store `r.buf[r.w] = c` when `w ≥ len buf` (hit for example on
a zero-capacity buffer that is not marked full). -/
def WriteByte (rb : RingBuffer) (c : Nat) : Option (Option GoErr × RingBuffer) :=
  if rb.w = rb.r ∧ rb.isFull then some (some GoErr.errFull, rb)
  else if rb.w < rb.buf.length then
    let buf1 := rb.buf.set rb.w c
    let w1 := rb.w + 1
    let w2 := if w1 = rb.size then 0 else w1
    let full2 := if w2 = rb.r then true else rb.isFull
    some (none, { rb with buf := buf1, w := w2, isFull := full2 })
  else none

/-- `Length()`: the number of unread bytes. -/
def Length (rb : RingBuffer) : Nat :=
  if rb.w = rb.r then (if rb.isFull then rb.size else 0)
  else if rb.r < rb.w then rb.w - rb.r
  else rb.size - rb.r + rb.w

/-- `Capacity()`: the size of the underlying buffer. -/
def Capacity (rb : RingBuffer) : Nat := rb.size

/-- `Free()`: the number of bytes available to write. -/
def Free (rb : RingBuffer) : Nat :=
  if rb.w = rb.r then (if rb.isFull then 0 else rb.size)
  else if rb.w < rb.r then rb.r - rb.w
  else rb.size - rb.w + rb.r

/-- The byte sequence a Go string denotes (its UTF-8 bytes).  This is what
the unsafe header-reinterpretation in `WriteString` produces as a byte
slice, since a Go string is exactly its UTF-8 byte array. -/
def stringToByteSlice (s : String) : List Nat :=
  s.toUTF8.toList.map (fun b => b.toNat)

/-- The byte sequence of a string as the spec words it: the text value
reinterpreted as its byte sequence. -/
def specStringBytes (s : String) : List Nat :=
  s.toUTF8.toList.map (fun b => b.toNat)

/-- `WriteString(s)`: reinterprets the string as a byte slice without a
copy and delegates to `Write`. -/
def WriteString (rb : RingBuffer) (s : String) : Nat × Option GoErr × RingBuffer :=
  Write rb (stringToByteSlice s)

/-- `Bytes()`: a copy of the unread bytes in logical order; the state is
not touched (the Go method only reads it), so the model returns only the
list. -/
def Bytes (rb : RingBuffer) : List Nat :=
  if rb.w = rb.r then
    if rb.isFull then
      goCopy (goCopy (List.replicate rb.size 0) 0 (rb.buf.drop rb.r))
        (rb.size - rb.r) (rb.buf.take rb.w)
    else []
  else if rb.r < rb.w then (rb.buf.drop rb.r).take (rb.w - rb.r)
  else
    let n := rb.size - rb.r + rb.w
    if rb.r + n < rb.size then (rb.buf.drop rb.r).take n
    else (rb.buf.drop rb.r).take (rb.size - rb.r) ++ rb.buf.take (n - (rb.size - rb.r))

/-- `IsFull()`. -/
def IsFull (rb : RingBuffer) : Bool := rb.isFull

/-- `IsEmpty()`. -/
def IsEmpty (rb : RingBuffer) : Bool := !rb.isFull && rb.w == rb.r

/-- `Reset()`: both cursors to zero, full flag cleared, storage kept. -/
def Reset (rb : RingBuffer) : RingBuffer :=
  { rb with r := 0, w := 0, isFull := false }

/-! ## Operation sequences -/

/-- One mutating public operation (the query methods do not change the
state). -/
inductive Op where
  | read (plen : Nat)
  | readByte
  | write (p : List Nat)
  | writeByte (c : Nat)
  | reset

/-- Apply one operation, keeping only the state; `none` is a run-time
fault. -/
def step (op : Op) (s : RingBuffer) : Option RingBuffer :=
  match op with
  | Op.read plen => (Read s plen).map (fun out => out.2.2)
  | Op.readByte => (ReadByte s).map (fun out => out.2.2)
  | Op.write p => some (Write s p).2.2
  | Op.writeByte c => (WriteByte s c).map (fun out => out.2)
  | Op.reset => some (Reset s)

/-- Run a sequence of operations from a state. -/
def exec (ops : List Op) (s : RingBuffer) : Option RingBuffer :=
  match ops with
  | [] => some s
  | op :: rest =>
    match step op s with
    | none => none
    | some s1 => exec rest s1

/-! ## The state invariant and the abstract contents -/

/-- The state invariant of a positive-capacity buffer: both cursors are in
range, the full flag forces cursor equality, and the backing list has
exactly `size` elements (true by construction in `New` and preserved by
every copy). -/
def Valid (rb : RingBuffer) : Prop :=
  rb.r < rb.size ∧ rb.w < rb.size ∧ (rb.isFull = true → rb.r = rb.w) ∧
    rb.buf.length = rb.size

instance (rb : RingBuffer) : Decidable (Valid rb) := by
  unfold Valid
  exact inferInstance

/-- The unread bytes in logical order (oldest first), as a function of the
state. -/
def contents (rb : RingBuffer) : List Nat :=
  if rb.w = rb.r then
    (if rb.isFull then rb.buf.drop rb.r ++ rb.buf.take rb.r else [])
  else if rb.r < rb.w then (rb.buf.drop rb.r).take (rb.w - rb.r)
  else rb.buf.drop rb.r ++ rb.buf.take rb.w


/-! ## Basic lemmas -/

theorem goCopy_length (dst : List Nat) (off : Nat) (src : List Nat) :
    (goCopy dst off src).length = dst.length := by
  unfold goCopy
  simp only [List.length_append, List.length_take, List.length_drop]
  omega

theorem goCopy_fit (dst src : List Nat) (off : Nat)
    (h : off + src.length ≤ dst.length) :
    goCopy dst off src = dst.take off ++ src ++ dst.drop (off + src.length) := by
  unfold goCopy
  have hm : min src.length (dst.length - off) = src.length := by omega
  rw [hm, List.take_length]

theorem take_append_of_le (X Y : List Nat) (m : Nat) (h : m ≤ X.length) :
    (X ++ Y).take m = X.take m := by
  rw [List.take_append_eq_append_take, Nat.sub_eq_zero_of_le h]
  simp

theorem drop_append_of_le (X Y : List Nat) (m : Nat) (h : m ≤ X.length) :
    (X ++ Y).drop m = X.drop m ++ Y := by
  rw [List.drop_append_eq_append_drop, Nat.sub_eq_zero_of_le h]
  simp

theorem valid_New (C : Nat) (hC : 0 < C) : Valid (New C) := by
  refine ⟨hC, hC, ?_, ?_⟩ <;> simp [New]

theorem length_add_free (s : RingBuffer) (hv : Valid s) :
    Length s + Free s = s.size := by
  obtain ⟨hr, hw, hfull, hbuf⟩ := hv
  unfold Length Free
  split_ifs <;> omega

theorem contents_le (s : RingBuffer) (hrw : s.r ≤ s.w) (hnf : s.isFull = false) :
    contents s = (s.buf.drop s.r).take (s.w - s.r) := by
  unfold contents
  rcases Nat.lt_or_ge s.r s.w with h | h
  · rw [if_neg (by omega), if_pos h]
  · have heq : s.w = s.r := by omega
    rw [if_pos heq, hnf]
    simp [heq]

theorem contents_gt (s : RingBuffer) (hrw : s.w < s.r) :
    contents s = s.buf.drop s.r ++ s.buf.take s.w := by
  unfold contents
  rw [if_neg (by omega), if_neg (by omega)]

theorem contents_length (s : RingBuffer) (hv : Valid s) :
    (contents s).length = Length s := by
  obtain ⟨hr, hw, hfull, hbuf⟩ := hv
  unfold contents Length
  split_ifs with h1 h2 h3 <;>
    simp only [List.length_append, List.length_take, List.length_drop,
      List.length_nil, hbuf] <;> omega

theorem free_pos (s : RingBuffer) (hv : Valid s) (hnf : s.isFull = false) :
    0 < Free s := by
  obtain ⟨hr, hw, hfull, hbuf⟩ := hv
  unfold Free
  simp only [hnf, Bool.false_eq_true, if_false]
  split_ifs <;> omega

/-- Effect of the no-wrap branch of `Write` on the logical contents:
copying `q` at the write cursor when it fits before the end of storage
appends `q` to the unread segment. -/
theorem contents_write_nowrap (buf q : List Nat) (C r w : Nat)
    (hbuf : buf.length = C) (hrw : r ≤ w) (hwC : w < C) (hq : 0 < q.length)
    (hfit : w + q.length ≤ C) :
    contents ⟨goCopy buf w q, C, r, (if w + q.length = C then 0 else w + q.length),
      (if (if w + q.length = C then 0 else w + q.length) = r then true else false)⟩
      = (buf.drop r).take (w - r) ++ q := by
  have hrC : r < C := lt_of_le_of_lt hrw hwC
  have hgc : goCopy buf w q = buf.take w ++ (q ++ buf.drop (w + q.length)) := by
    rw [goCopy_fit _ _ _ (by omega), List.append_assoc]
  have hdropr : (buf.take w ++ (q ++ buf.drop (w + q.length))).drop r
      = (buf.drop r).take (w - r) ++ (q ++ buf.drop (w + q.length)) := by
    rw [drop_append_of_le _ _ _ (by simp only [List.length_take]; omega),
      List.drop_take]
  by_cases hC : w + q.length = C
  · have hdnil : buf.drop (w + q.length) = [] := List.drop_eq_nil_of_le (by omega)
    rw [if_pos hC]
    by_cases hr0 : r = 0
    · subst hr0
      rw [if_pos rfl]
      unfold contents
      dsimp only
      rw [if_pos rfl, if_pos rfl, hgc, hdnil]
      simp
    · rw [if_neg (fun h => hr0 h.symm)]
      unfold contents
      dsimp only
      rw [if_neg (fun h => hr0 h.symm), if_neg (by omega), hgc, hdropr, hdnil]
      simp
  · rw [if_neg hC]
    have hne : ¬ ((w + q.length : Nat) = r) := by omega
    rw [if_neg hne]
    unfold contents
    dsimp only
    rw [if_neg hne, if_pos (by omega : r < w + q.length), hgc, hdropr]
    have hXlen : ((buf.drop r).take (w - r)).length = w - r := by
      simp only [List.length_take, List.length_drop]
      omega
    have hXle : ((buf.drop r).take (w - r)).length ≤ w + q.length - r := by
      rw [hXlen]
      omega
    rw [List.take_append_eq_append_take, List.take_of_length_le hXle, hXlen]
    have hidx : w + q.length - r - (w - r) = q.length := by omega
    rw [hidx, take_append_of_le _ _ _ (le_refl q.length), List.take_length]

/-- Effect of the wrapping branch of `Write` on the logical contents: the
payload is split at the end of storage, the tail part goes at the write
cursor and the head part at slot zero, and logically `q` is appended to
the unread segment. -/
theorem contents_write_wrap (buf q : List Nat) (C r w : Nat)
    (hbuf : buf.length = C) (hrw : r ≤ w) (hwC : w < C)
    (hbig : C - w < q.length) (hfit : q.length ≤ C - w + r) :
    contents ⟨goCopy (goCopy buf w (q.take (C - w))) 0 (q.drop (C - w)), C, r,
      (if q.length - (C - w) = C then 0 else q.length - (C - w)),
      (if (if q.length - (C - w) = C then 0 else q.length - (C - w)) = r
        then true else false)⟩
      = (buf.drop r).take (w - r) ++ q := by
  have hrC : r < C := lt_of_le_of_lt hrw hwC
  have hc1 : (q.take (C - w)).length = C - w := by
    simp only [List.length_take]
    omega
  have hdlen : (q.drop (C - w)).length = q.length - (C - w) := by
    simp only [List.length_drop]
  have hinner : goCopy buf w (q.take (C - w)) = buf.take w ++ q.take (C - w) := by
    rw [goCopy_fit _ _ _ (by rw [hc1]; omega), hc1]
    have hWC : w + (C - w) = C := by omega
    rw [hWC, List.drop_eq_nil_of_le (by omega), List.append_nil]
  have hinlen : (buf.take w ++ q.take (C - w)).length = C := by
    simp only [List.length_append, List.length_take]
    omega
  have hbuf1 : goCopy (goCopy buf w (q.take (C - w))) 0 (q.drop (C - w))
      = q.drop (C - w)
        ++ ((buf.drop (q.length - (C - w))).take (w - (q.length - (C - w)))
          ++ q.take (C - w)) := by
    rw [hinner, goCopy_fit _ _ _ (by rw [hinlen, hdlen]; omega), hdlen]
    simp only [List.take_zero, List.nil_append, Nat.zero_add]
    rw [drop_append_of_le _ _ _ (by simp only [List.length_take]; omega),
      List.drop_take]
  rw [if_neg (by omega : ¬ (q.length - (C - w) = C))]
  have hXlen : (q.drop (C - w)).length = q.length - (C - w) := hdlen
  by_cases hc2r : q.length - (C - w) = r
  · have hXr : (q.drop (C - w)).length = r := by rw [hdlen, hc2r]
    have htk : (q.drop (C - w)
        ++ ((buf.drop (q.length - (C - w))).take (w - (q.length - (C - w)))
          ++ q.take (C - w))).take r = q.drop (C - w) := by
      rw [take_append_of_le _ _ _ (le_of_eq hXr.symm),
        List.take_of_length_le (le_of_eq hXr)]
    have hdp : (q.drop (C - w)
        ++ ((buf.drop (q.length - (C - w))).take (w - (q.length - (C - w)))
          ++ q.take (C - w))).drop r
        = (buf.drop (q.length - (C - w))).take (w - (q.length - (C - w)))
          ++ q.take (C - w) := by
      rw [drop_append_of_le _ _ _ (le_of_eq hXr.symm),
        List.drop_eq_nil_of_le (le_of_eq hXr), List.nil_append]
    rw [if_pos hc2r]
    unfold contents
    dsimp only
    rw [if_pos hc2r, if_pos rfl, hbuf1, htk, hdp, hc2r, List.append_assoc,
      List.take_append_drop]
  · have hc2lt : q.length - (C - w) < r := by omega
    have htk : (q.drop (C - w)
        ++ ((buf.drop (q.length - (C - w))).take (w - (q.length - (C - w)))
          ++ q.take (C - w))).take (q.length - (C - w)) = q.drop (C - w) := by
      rw [take_append_of_le _ _ _ (le_of_eq hXlen.symm),
        List.take_of_length_le (le_of_eq hXlen)]
    have hW : ((buf.drop (q.length - (C - w))).take
        (w - (q.length - (C - w)))).length = w - (q.length - (C - w)) := by
      simp only [List.length_take, List.length_drop]
      omega
    have hYd : ((buf.drop (q.length - (C - w))).take (w - (q.length - (C - w)))
          ++ q.take (C - w)).drop (r - (q.length - (C - w)))
        = (buf.drop r).take (w - r) ++ q.take (C - w) := by
      rw [List.drop_append_eq_append_drop, hW]
      have hz : r - (q.length - (C - w)) - (w - (q.length - (C - w))) = 0 := by
        omega
      rw [hz, List.drop_zero, List.drop_take, List.drop_drop]
      have hsum : q.length - (C - w) + (r - (q.length - (C - w))) = r := by omega
      have hsub : w - (q.length - (C - w)) - (r - (q.length - (C - w)))
          = w - r := by omega
      rw [hsum, hsub]
    have hdp : (q.drop (C - w)
        ++ ((buf.drop (q.length - (C - w))).take (w - (q.length - (C - w)))
          ++ q.take (C - w))).drop r
        = (buf.drop r).take (w - r) ++ q.take (C - w) := by
      rw [List.drop_append_eq_append_drop, hXlen,
        List.drop_eq_nil_of_le (by rw [hXlen]; omega), List.nil_append, hYd]
    rw [if_neg hc2r]
    unfold contents
    dsimp only
    rw [if_neg hc2r, if_neg (by omega), hbuf1, htk, hdp, List.append_assoc,
      List.take_append_drop]

/-- Effect of `Write` when the write cursor is strictly below the read
cursor: the payload lands in the free gap between the cursors and is
appended to the unread segment. -/
theorem contents_write_mid (buf q : List Nat) (C r w : Nat)
    (hbuf : buf.length = C) (hwr : w < r) (hrC : r < C)
    (hfit : w + q.length ≤ r) :
    contents ⟨goCopy buf w q, C, r, (if w + q.length = C then 0 else w + q.length),
      (if (if w + q.length = C then 0 else w + q.length) = r then true else false)⟩
      = (buf.drop r ++ buf.take w) ++ q := by
  have hTw : (buf.take w).length = w := by
    simp only [List.length_take]
    omega
  have hgc : goCopy buf w q = buf.take w ++ (q ++ buf.drop (w + q.length)) := by
    rw [goCopy_fit _ _ _ (by omega), List.append_assoc]
  have htk : (buf.take w ++ (q ++ buf.drop (w + q.length))).take (w + q.length)
      = buf.take w ++ q := by
    rw [List.take_append_eq_append_take, hTw,
      List.take_of_length_le (by rw [hTw]; omega)]
    have hi : w + q.length - w = q.length := by omega
    rw [hi, take_append_of_le _ _ _ (le_refl q.length), List.take_length]
  have hdr : (buf.take w ++ (q ++ buf.drop (w + q.length))).drop r
      = buf.drop r := by
    rw [List.drop_append_eq_append_drop, hTw,
      List.drop_eq_nil_of_le (by rw [hTw]; omega), List.nil_append,
      List.drop_append_eq_append_drop,
      List.drop_eq_nil_of_le (by omega : q.length ≤ r - w), List.nil_append,
      List.drop_drop]
    have hi : w + q.length + (r - w - q.length) = r := by omega
    rw [hi]
  rw [if_neg (by omega : ¬ (w + q.length = C))]
  by_cases hfull : w + q.length = r
  · rw [if_pos hfull]
    unfold contents
    dsimp only
    have htkr : (buf.take w ++ (q ++ buf.drop (w + q.length))).take r
        = buf.take w ++ q := by
      rw [← hfull]
      exact htk
    rw [if_pos hfull, if_pos rfl, hgc, hdr, htkr, List.append_assoc]
  · rw [if_neg hfull]
    unfold contents
    dsimp only
    rw [if_neg hfull, if_neg (by omega), hgc, hdr, htk, List.append_assoc]

theorem take_min_self (p : List Nat) (a : Nat) :
    p.take (min p.length a) = p.take a := by
  rcases le_total p.length a with h | h
  · rw [min_eq_left h, List.take_length, List.take_of_length_le h]
  · rw [min_eq_right h]

theorem full_flag_imp (x r : Nat) :
    ((if x = r then true else false) = true) → r = x := by
  split_ifs with h
  · exact fun _ => h.symm
  · exact fun hh => absurd hh (by simp)

/-- Full characterisation of `Write` on a valid state: the returned count
is `min (len p) (Free s)`, the error is `ErrFull` exactly when the payload
exceeds the free space, validity and the size are preserved, and the
committed prefix of `p` is appended to the unread contents. -/
theorem write_props (s : RingBuffer) (p : List Nat) (hv : Valid s) :
    (Write s p).1 = min p.length (Free s) ∧
    (Write s p).2.1 = (if Free s < p.length then some GoErr.errFull else none) ∧
    Valid (Write s p).2.2 ∧ (Write s p).2.2.size = s.size ∧
    contents (Write s p).2.2 = contents s ++ p.take (min p.length (Free s)) := by
  obtain ⟨buf, C, r, w, fl⟩ := s
  obtain ⟨hr, hw, hfull, hbuf⟩ := hv
  dsimp only at hr hw hfull hbuf
  by_cases hp : p.length = 0
  · have hpnil : p = [] := List.length_eq_zero.mp hp
    subst hpnil
    refine ⟨by simp [Write], by simp [Write], ?_, by simp [Write], by simp [Write]⟩
    have hvv : Valid ⟨buf, C, r, w, fl⟩ := ⟨hr, hw, hfull, hbuf⟩
    simpa [Write] using hvv
  by_cases hfl : fl = true
  · subst hfl
    have hrweq : r = w := hfull rfl
    subst hrweq
    have hFree : Free ⟨buf, C, r, r, true⟩ = 0 := by
      unfold Free
      dsimp only
      rw [if_pos rfl, if_pos rfl]
    have hWr : Write ⟨buf, C, r, r, true⟩ p
        = (0, some GoErr.errFull, ⟨buf, C, r, r, true⟩) := by
      unfold Write
      dsimp only
      rw [if_neg hp, if_pos rfl]
    rw [hWr, hFree]
    refine ⟨by simp, ?_, ⟨hr, hw, hfull, hbuf⟩, rfl, by simp⟩
    rw [if_pos (by omega)]
  · have hfl0 : fl = false := by
      revert hfl
      cases fl <;> simp
    subst hfl0
    by_cases hrw : r ≤ w
    · have hFree : Free ⟨buf, C, r, w, false⟩ = C - w + r := by
        unfold Free
        dsimp only
        simp only [Bool.false_eq_true, if_false]
        split_ifs <;> omega
      have hcont : contents ⟨buf, C, r, w, false⟩ = (buf.drop r).take (w - r) :=
        contents_le _ hrw rfl
      rw [hFree, hcont]
      unfold Write
      dsimp only
      rw [if_neg hp, if_neg Bool.false_ne_true, if_pos hrw, if_pos hrw]
      by_cases htr : C - w + r < p.length
      · rw [if_pos htr]
        have hqlen : (p.take (C - w + r)).length = C - w + r := by
          simp only [List.length_take]
          omega
        have hminq : min p.length (C - w + r) = C - w + r := by omega
        by_cases hfit : (p.take (C - w + r)).length ≤ C - w
        · rw [if_pos hfit]
          dsimp only
          refine ⟨?_, ?_, ⟨hr, ?_, ?_, ?_⟩, rfl, ?_⟩
          · rw [hqlen]
            omega
          · rw [if_pos htr]
          · dsimp only
            rw [hqlen]
            split_ifs <;> omega
          · dsimp only
            exact full_flag_imp _ _
          · dsimp only
            rw [goCopy_length, hbuf]
          · rw [hminq]
            exact contents_write_nowrap buf (p.take (C - w + r)) C r w hbuf hrw hw
              (by rw [hqlen]; omega) (by rw [hqlen]; omega)
        · rw [if_neg hfit]
          dsimp only
          refine ⟨?_, ?_, ⟨hr, ?_, ?_, ?_⟩, rfl, ?_⟩
          · rw [hqlen]
            omega
          · rw [if_pos htr]
          · dsimp only
            rw [hqlen]
            split_ifs <;> omega
          · dsimp only
            exact full_flag_imp _ _
          · dsimp only
            rw [goCopy_length, goCopy_length, hbuf]
          · rw [hminq]
            exact contents_write_wrap buf (p.take (C - w + r)) C r w hbuf hrw hw
              (by rw [hqlen]; omega) (by rw [hqlen])
      · rw [if_neg htr]
        have hminq : min p.length (C - w + r) = p.length := by omega
        by_cases hfit : p.length ≤ C - w
        · rw [if_pos hfit]
          dsimp only
          refine ⟨?_, ?_, ⟨hr, ?_, ?_, ?_⟩, rfl, ?_⟩
          · omega
          · rw [if_neg htr]
          · dsimp only
            split_ifs <;> omega
          · dsimp only
            exact full_flag_imp _ _
          · dsimp only
            rw [goCopy_length, hbuf]
          · rw [hminq, List.take_length]
            exact contents_write_nowrap buf p C r w hbuf hrw hw
              (by omega) (by omega)
        · rw [if_neg hfit]
          dsimp only
          refine ⟨?_, ?_, ⟨hr, ?_, ?_, ?_⟩, rfl, ?_⟩
          · omega
          · rw [if_neg htr]
          · dsimp only
            split_ifs <;> omega
          · dsimp only
            exact full_flag_imp _ _
          · dsimp only
            rw [goCopy_length, goCopy_length, hbuf]
          · rw [hminq, List.take_length]
            exact contents_write_wrap buf p C r w hbuf hrw hw
              (by omega) (by omega)
    · have hwr : w < r := by omega
      have hFree : Free ⟨buf, C, r, w, false⟩ = r - w := by
        unfold Free
        dsimp only
        simp only [Bool.false_eq_true, if_false]
        split_ifs <;> omega
      have hcont : contents ⟨buf, C, r, w, false⟩ = buf.drop r ++ buf.take w :=
        contents_gt _ hwr
      rw [hFree, hcont]
      unfold Write
      dsimp only
      rw [if_neg hp, if_neg Bool.false_ne_true, if_neg hrw, if_neg hrw]
      by_cases htr : r - w < p.length
      · rw [if_pos htr]
        dsimp only
        have hqlen : (p.take (r - w)).length = r - w := by
          simp only [List.length_take]
          omega
        have hminq : min p.length (r - w) = r - w := by omega
        refine ⟨?_, ?_, ⟨hr, ?_, ?_, ?_⟩, rfl, ?_⟩
        · rw [hqlen]
          omega
        · rw [if_pos htr]
        · dsimp only
          rw [hqlen]
          split_ifs <;> omega
        · dsimp only
          exact full_flag_imp _ _
        · dsimp only
          rw [goCopy_length, hbuf]
        · rw [hminq]
          exact contents_write_mid buf (p.take (r - w)) C r w hbuf hwr hr
            (by rw [hqlen]; omega)
      · rw [if_neg htr]
        dsimp only
        have hminq : min p.length (r - w) = p.length := by omega
        refine ⟨?_, ?_, ⟨hr, ?_, ?_, ?_⟩, rfl, ?_⟩
        · omega
        · rw [if_neg htr]
        · dsimp only
          split_ifs <;> omega
        · dsimp only
          exact full_flag_imp _ _
        · dsimp only
          rw [goCopy_length, hbuf]
        · rw [hminq, List.take_length]
          exact contents_write_mid buf p C r w hbuf hwr hr (by omega)

/-- Full characterisation of `Read` on a valid state: no run-time fault,
the bytes returned are the first `min (Length s) plen` unread bytes,
`ErrEmpty` is returned exactly on a non-trivial read of an empty buffer,
and the returned bytes are dropped from the unread contents. -/
theorem read_props (s : RingBuffer) (m : Nat) (hv : Valid s) :
    ∃ t : RingBuffer,
      Read s m = some ((contents s).take (min (Length s) m),
        (if m ≠ 0 ∧ Length s = 0 then some GoErr.errEmpty else none), t) ∧
      Valid t ∧ t.size = s.size ∧
      contents t = (contents s).drop (min (Length s) m) := by
  obtain ⟨buf, C, r, w, fl⟩ := s
  obtain ⟨hr, hw, hfull, hbuf⟩ := hv
  dsimp only at hr hw hfull hbuf
  by_cases hm0 : m = 0
  · subst hm0
    refine ⟨⟨buf, C, r, w, fl⟩, ?_, ⟨hr, hw, hfull, hbuf⟩, rfl, ?_⟩
    · unfold Read
      simp
    · simp
  by_cases hempty : w = r ∧ fl = false
  · obtain ⟨hwr, hfl⟩ := hempty
    subst hfl
    subst hwr
    have hL : Length ⟨buf, C, w, w, false⟩ = 0 := by
      unfold Length
      dsimp only
      rw [if_pos rfl]
      simp
    have hcont0 : contents ⟨buf, C, w, w, false⟩ = [] := by
      unfold contents
      dsimp only
      rw [if_pos rfl]
      simp
    rw [hL, hcont0]
    refine ⟨⟨buf, C, w, w, false⟩, ?_, ⟨hr, hw, hfull, hbuf⟩, rfl, ?_⟩
    · unfold Read
      dsimp only
      rw [if_neg hm0, if_pos ⟨rfl, rfl⟩, if_pos ⟨hm0, rfl⟩]
      simp
    · simp [hcont0]
  by_cases hlt : r < w
  · have hfl : fl = false := by
      cases fl with
      | false => rfl
      | true => exact absurd (hfull rfl) (by omega)
    subst hfl
    have hL : Length ⟨buf, C, r, w, false⟩ = w - r := by
      unfold Length
      dsimp only
      rw [if_neg (by omega), if_pos hlt]
    have hcont : contents ⟨buf, C, r, w, false⟩ = (buf.drop r).take (w - r) :=
      contents_le ⟨buf, C, r, w, false⟩ (by dsimp only; omega) rfl
    rw [hL, hcont]
    have hnle : min (w - r) m ≤ w - r := Nat.min_le_left _ _
    have hmod3 : (r + min (w - r) m) % C = r + min (w - r) m :=
      Nat.mod_eq_of_lt (by omega)
    refine ⟨⟨buf, C, r + min (w - r) m, w, false⟩, ?_,
      ⟨by dsimp only; omega, hw, fun h => absurd h (by simp), hbuf⟩, rfl, ?_⟩
    · unfold Read
      dsimp only
      rw [if_neg hm0, if_neg (fun h => absurd h.1 (by omega)), if_pos hlt,
        if_neg (by omega : ¬ (C = 0)), hmod3,
        if_neg (fun h => absurd h.2 (by omega) : ¬ (m ≠ 0 ∧ w - r = 0))]
      have hdata : ((buf.drop r).take (w - r)).take (min (w - r) m)
          = (buf.drop r).take (min (w - r) m) := by
        rw [List.take_take, min_eq_left hnle]
      rw [hdata]
    · rw [contents_le ⟨buf, C, r + min (w - r) m, w, false⟩
        (by dsimp only; omega) rfl]
      dsimp only
      rw [List.drop_take, List.drop_drop, Nat.sub_sub]
  · have h2 : ¬ (w = r ∧ fl = false) := hempty
    have hwle : w ≤ r := by omega
    have hL : Length ⟨buf, C, r, w, fl⟩ = C - r + w := by
      unfold Length
      dsimp only
      by_cases hweq : w = r
      · rw [if_pos hweq]
        have hflt : fl = true := by
          cases fl with
          | true => rfl
          | false => exact absurd ⟨hweq, rfl⟩ hempty
        rw [hflt, if_pos rfl]
        omega
      · rw [if_neg hweq, if_neg (by omega)]
    have hcont : contents ⟨buf, C, r, w, fl⟩ = buf.drop r ++ buf.take w := by
      unfold contents
      dsimp only
      by_cases hweq : w = r
      · rw [if_pos hweq]
        have hflt : fl = true := by
          cases fl with
          | true => rfl
          | false => exact absurd ⟨hweq, rfl⟩ hempty
        rw [hflt, if_pos rfl, hweq]
      · rw [if_neg hweq, if_neg (by omega)]
    rw [hL, hcont]
    have hdl : (buf.drop r).length = C - r := by
      simp only [List.length_drop, hbuf]
    have hnle : min (C - r + w) m ≤ C - r + w := Nat.min_le_left _ _
    have hn1 : 1 ≤ min (C - r + w) m := by omega
    have herr : ¬ (m ≠ 0 ∧ C - r + w = 0) := fun h => absurd h.2 (by omega)
    by_cases hrn : r + min (C - r + w) m < C
    · have hmod : (r + min (C - r + w) m) % C = r + min (C - r + w) m :=
        Nat.mod_eq_of_lt hrn
      refine ⟨⟨buf, C, r + min (C - r + w) m, w, false⟩, ?_,
        ⟨by dsimp only; omega, hw, fun h => absurd h (by simp), hbuf⟩, rfl, ?_⟩
      · unfold Read
        dsimp only
        rw [if_neg hm0, if_neg h2, if_neg (by omega : ¬ (r < w)),
          if_neg (by omega : ¬ (C = 0)),
          if_pos (by omega : r + min (C - r + w) m ≤ C), hmod, if_neg herr]
        have hdata : (buf.drop r ++ buf.take w).take (min (C - r + w) m)
            = (buf.drop r).take (min (C - r + w) m) := by
          rw [List.take_append_eq_append_take, hdl]
          have h0 : min (C - r + w) m - (C - r) = 0 := by omega
          rw [h0, List.take_zero, List.append_nil]
        rw [hdata]
      · rw [contents_gt ⟨buf, C, r + min (C - r + w) m, w, false⟩
          (by dsimp only; omega)]
        dsimp only
        rw [List.drop_append_eq_append_drop, hdl]
        have h0 : min (C - r + w) m - (C - r) = 0 := by omega
        rw [h0, List.drop_zero, List.drop_drop]
    · by_cases hrn2 : r + min (C - r + w) m = C
      · have hmod : (r + min (C - r + w) m) % C = 0 := by
          rw [hrn2, Nat.mod_self]
        refine ⟨⟨buf, C, 0, w, false⟩, ?_,
          ⟨by dsimp only; omega, hw, fun h => absurd h (by simp), hbuf⟩, rfl, ?_⟩
        · unfold Read
          dsimp only
          rw [if_neg hm0, if_neg h2, if_neg (by omega : ¬ (r < w)),
            if_neg (by omega : ¬ (C = 0)), if_pos (le_of_eq hrn2), hmod,
            if_neg herr]
          have hdata : (buf.drop r ++ buf.take w).take (min (C - r + w) m)
              = (buf.drop r).take (min (C - r + w) m) := by
            rw [List.take_append_eq_append_take, hdl]
            have h0 : min (C - r + w) m - (C - r) = 0 := by omega
            rw [h0, List.take_zero, List.append_nil]
          rw [hdata]
        · rw [contents_le ⟨buf, C, 0, w, false⟩ (by dsimp only; omega) rfl]
          dsimp only
          rw [List.drop_append_eq_append_drop, hdl]
          have h0 : min (C - r + w) m - (C - r) = 0 := by omega
          rw [h0, List.drop_zero, List.drop_drop]
          rw [List.drop_eq_nil_of_le (by rw [hbuf]; omega), List.nil_append]
          simp
      · have hmod : (r + min (C - r + w) m) % C
            = r + min (C - r + w) m - C := by
          rw [Nat.mod_eq_sub_mod (by omega)]
          exact Nat.mod_eq_of_lt (by omega)
        refine ⟨⟨buf, C, r + min (C - r + w) m - C, w, false⟩, ?_,
          ⟨by dsimp only; omega, hw, fun h => absurd h (by simp), hbuf⟩, rfl, ?_⟩
        · unfold Read
          dsimp only
          rw [if_neg hm0, if_neg h2, if_neg (by omega : ¬ (r < w)),
            if_neg (by omega : ¬ (C = 0)),
            if_neg (by omega : ¬ (r + min (C - r + w) m ≤ C)), hmod,
            if_neg herr]
          have hread : (buf.drop r).take (C - r) = buf.drop r :=
            List.take_of_length_le (by rw [hdl])
          have hspec : (buf.drop r ++ buf.take w).take (min (C - r + w) m)
              = buf.drop r ++ buf.take (min (C - r + w) m - (C - r)) := by
            rw [List.take_append_eq_append_take, hdl,
              List.take_of_length_le (by rw [hdl]; omega), List.take_take,
              min_eq_left (by omega)]
          rw [hread, hspec]
        · by_cases hr2w : r + min (C - r + w) m - C = w
          · rw [hr2w]
            have hcl : contents ⟨buf, C, w, w, false⟩ = [] := by
              unfold contents
              dsimp only
              rw [if_pos rfl]
              simp
            rw [hcl]
            refine (List.drop_eq_nil_of_le ?_).symm
            simp only [List.length_append, List.length_take, List.length_drop,
              hbuf]
            omega
          · rw [contents_le ⟨buf, C, r + min (C - r + w) m - C, w, false⟩
              (by dsimp only; omega) rfl]
            dsimp only
            have hnil : (buf.drop r).drop (min (C - r + w) m) = [] :=
              List.drop_eq_nil_of_le (by rw [hdl]; omega)
            rw [List.drop_append_eq_append_drop, hdl, hnil, List.nil_append,
              List.drop_take]
            have hi : min (C - r + w) m - (C - r)
                = r + min (C - r + w) m - C := by omega
            rw [hi]

/-- `ReadByte` on a valid state never faults and preserves the invariant
and the size. -/
theorem readByte_props (s : RingBuffer) (hv : Valid s) :
    ∃ out, ReadByte s = some out ∧ Valid out.2.2 ∧ out.2.2.size = s.size := by
  obtain ⟨buf, C, r, w, fl⟩ := s
  obtain ⟨hr, hw, hfull, hbuf⟩ := hv
  dsimp only at hr hw hfull hbuf
  unfold ReadByte
  dsimp only
  by_cases hempty : w = r ∧ fl = false
  · rw [if_pos hempty]
    exact ⟨_, rfl, ⟨hr, hw, hfull, hbuf⟩, rfl⟩
  · rw [if_neg hempty]
    have hget : buf.get? r = some (buf.get ⟨r, by omega⟩) :=
      List.get?_eq_get (by omega)
    rw [hget]
    dsimp only
    refine ⟨_, rfl, ⟨?_, hw, ?_, hbuf⟩, rfl⟩
    · dsimp only
      split_ifs <;> omega
    · exact fun h => absurd h (by simp)

/-- `WriteByte` on a valid state never faults and preserves the invariant
and the size. -/
theorem writeByte_props (s : RingBuffer) (c : Nat) (hv : Valid s) :
    ∃ out, WriteByte s c = some out ∧ Valid out.2 ∧ out.2.size = s.size := by
  obtain ⟨buf, C, r, w, fl⟩ := s
  obtain ⟨hr, hw, hfull, hbuf⟩ := hv
  dsimp only at hr hw hfull hbuf
  by_cases hfc : w = r ∧ fl = true
  · unfold WriteByte
    dsimp only
    rw [if_pos hfc]
    exact ⟨_, rfl, ⟨hr, hw, hfull, hbuf⟩, rfl⟩
  · have hfl : fl = false := by
      cases fl with
      | false => rfl
      | true => exact absurd ⟨(hfull rfl).symm, rfl⟩ hfc
    subst hfl
    unfold WriteByte
    dsimp only
    rw [if_neg hfc, if_pos (show w < buf.length by rw [hbuf]; exact hw)]
    refine ⟨_, rfl, ⟨hr, ?_, ?_, ?_⟩, rfl⟩
    · dsimp only
      split_ifs <;> omega
    · dsimp only
      exact full_flag_imp _ _
    · dsimp only
      rw [List.length_set, hbuf]

/-- `Bytes` returns exactly the unread bytes in logical order. -/
theorem bytes_eq_contents (s : RingBuffer) (hv : Valid s) :
    Bytes s = contents s := by
  obtain ⟨buf, C, r, w, fl⟩ := s
  obtain ⟨hr, hw, hfull, hbuf⟩ := hv
  dsimp only at hr hw hfull hbuf
  have hdl : (buf.drop r).length = C - r := by
    simp only [List.length_drop, hbuf]
  unfold Bytes contents
  dsimp only
  by_cases h1 : w = r
  · rw [if_pos h1, if_pos h1]
    by_cases hf : fl = true
    · rw [if_pos hf, if_pos hf, h1]
      have hinner : goCopy (List.replicate C 0) 0 (buf.drop r)
          = buf.drop r ++ List.replicate r 0 := by
        rw [goCopy_fit _ _ _ (by
          simp only [List.length_replicate, List.length_drop, hbuf]
          omega)]
        rw [List.take_zero, List.nil_append, Nat.zero_add, hdl,
          List.drop_replicate]
        have hcr : C - (C - r) = r := by omega
        rw [hcr]
      have htr2 : (buf.take r).length = r := by
        simp only [List.length_take]
        omega
      have houter : goCopy (buf.drop r ++ List.replicate r (0 : Nat)) (C - r)
            (buf.take r)
          = (buf.drop r ++ List.replicate r (0 : Nat)).take (C - r)
            ++ buf.take r ++ (buf.drop r ++ List.replicate r (0 : Nat)).drop
              ((C - r) + (buf.take r).length) :=
        goCopy_fit _ _ _ (by
          simp only [List.length_append, List.length_replicate, htr2, hdl]
          omega)
      have hA : (buf.drop r ++ List.replicate r (0 : Nat)).take (C - r)
          = buf.drop r := by
        rw [take_append_of_le _ _ _ (le_of_eq hdl.symm),
          List.take_of_length_le (le_of_eq hdl)]
      have hB : (buf.drop r ++ List.replicate r (0 : Nat)).drop
          ((C - r) + (buf.take r).length) = [] := by
        rw [htr2]
        refine List.drop_eq_nil_of_le ?_
        simp only [List.length_append, List.length_replicate, hdl]
        omega
      rw [hinner, houter, hA, hB, List.append_nil]
    · rw [if_neg hf, if_neg hf]
  · rw [if_neg h1, if_neg h1]
    by_cases h2 : r < w
    · rw [if_pos h2, if_pos h2]
    · rw [if_neg h2, if_neg h2]
      rw [if_neg (by omega : ¬ (r + (C - r + w) < C))]
      have hA : (buf.drop r).take (C - r) = buf.drop r :=
        List.take_of_length_le (le_of_eq hdl)
      have hi : C - r + w - (C - r) = w := by omega
      rw [hA, hi]

/-- Every mutating operation on a valid state completes without a fault
and yields a valid state of the same capacity. -/
theorem step_valid (op : Op) (s : RingBuffer) (hv : Valid s) :
    ∃ t, step op s = some t ∧ Valid t ∧ t.size = s.size := by
  cases op with
  | read plen =>
    obtain ⟨t, hrd, hvt, hsz, hc⟩ := read_props s plen hv
    exact ⟨t, by simp [step, hrd], hvt, hsz⟩
  | readByte =>
    obtain ⟨out, h, hvt, hsz⟩ := readByte_props s hv
    exact ⟨out.2.2, by simp [step, h], hvt, hsz⟩
  | write p =>
    obtain ⟨h1, h2, hvt, hsz, h5⟩ := write_props s p hv
    exact ⟨(Write s p).2.2, by simp [step], hvt, hsz⟩
  | writeByte c =>
    obtain ⟨out, h, hvt, hsz⟩ := writeByte_props s c hv
    exact ⟨out.2, by simp [step, h], hvt, hsz⟩
  | reset =>
    obtain ⟨hr, hw, hfull, hbuf⟩ := hv
    refine ⟨Reset s, rfl, ⟨?_, ?_, ?_, ?_⟩, rfl⟩
    · simp only [Reset]
      omega
    · simp only [Reset]
      omega
    · simp only [Reset]
      exact fun h => absurd h (by simp)
    · simp only [Reset]
      exact hbuf

/-- Any sequence of operations run from a valid state completes without a
fault and ends in a valid state of the same capacity. -/
theorem exec_valid (ops : List Op) (s : RingBuffer) (hv : Valid s) :
    ∃ t, exec ops s = some t ∧ Valid t ∧ t.size = s.size := by
  induction ops generalizing s with
  | nil => exact ⟨s, rfl, hv, rfl⟩
  | cons op rest ih =>
    obtain ⟨t, hstep, hvt, hsz⟩ := step_valid op s hv
    obtain ⟨u, hexec, hvu, hszu⟩ := ih t hvt
    refine ⟨u, ?_, hvu, by omega⟩
    unfold exec
    rw [hstep]
    exact hexec

/-- The shape of every state of a zero-capacity buffer that is reachable
from `New 0`. -/
def ZeroState (s : RingBuffer) : Prop :=
  s.buf = [] ∧ s.size = 0 ∧ s.r = 0 ∧ s.w = 0

theorem step_zero (op : Op) (s : RingBuffer) (hz : ZeroState s) :
    ∀ t, step op s = some t → ZeroState t := by
  obtain ⟨buf, C, r, w, fl⟩ := s
  obtain ⟨hb, hC, hrr, hww⟩ := hz
  dsimp only at hb hC hrr hww
  subst hb
  subst hC
  subst hrr
  subst hww
  intro t ht
  cases op with
  | read plen =>
    by_cases hp : plen = 0
    · simp [step, Read, hp] at ht
      subst ht
      exact ⟨rfl, rfl, rfl, rfl⟩
    · cases fl with
      | false =>
        simp [step, Read, hp] at ht
        subst ht
        exact ⟨rfl, rfl, rfl, rfl⟩
      | true =>
        simp [step, Read, hp] at ht
  | readByte =>
    cases fl with
    | false =>
      simp [step, ReadByte] at ht
      subst ht
      exact ⟨rfl, rfl, rfl, rfl⟩
    | true =>
      simp [step, ReadByte] at ht
  | write p =>
    by_cases hp : p.length = 0
    · simp [step, Write, hp] at ht
      subst ht
      exact ⟨rfl, rfl, rfl, rfl⟩
    · have hp2 : 0 < p.length := Nat.pos_of_ne_zero hp
      cases fl with
      | false =>
        simp [step, Write, hp, hp2, goCopy] at ht
        subst ht
        exact ⟨rfl, rfl, rfl, rfl⟩
      | true =>
        simp [step, Write, hp] at ht
        subst ht
        exact ⟨rfl, rfl, rfl, rfl⟩
  | writeByte c =>
    cases fl with
    | false =>
      simp [step, WriteByte] at ht
    | true =>
      simp [step, WriteByte] at ht
      subst ht
      exact ⟨rfl, rfl, rfl, rfl⟩
  | reset =>
    simp [step, Reset] at ht
    subst ht
    exact ⟨rfl, rfl, rfl, rfl⟩

theorem exec_zero (ops : List Op) (s : RingBuffer) (hz : ZeroState s) :
    ∀ t, exec ops s = some t → ZeroState t := by
  induction ops generalizing s with
  | nil =>
    intro t ht
    unfold exec at ht
    exact (Option.some.injEq .. ▸ ht : s = t) ▸ hz
  | cons op rest ih =>
    intro t ht
    unfold exec at ht
    cases hst : step op s with
    | none => rw [hst] at ht; exact absurd ht (by simp)
    | some u =>
      rw [hst] at ht
      exact ih u (step_zero op s hz u hst) t ht

theorem zero_length_free (s : RingBuffer) (hz : ZeroState s) :
    Length s = 0 ∧ Free s = 0 := by
  obtain ⟨buf, C, r, w, fl⟩ := s
  obtain ⟨hb, hC, hrr, hww⟩ := hz
  dsimp only at hb hC hrr hww
  subst hb
  subst hC
  subst hrr
  subst hww
  cases fl <;> simp [Length, Free]

theorem isFull_of_length_eq_size (s : RingBuffer) (hv : Valid s)
    (h : Length s = s.size) : IsFull s = true := by
  obtain ⟨buf, C, r, w, fl⟩ := s
  obtain ⟨hr, hw, hfull, hbuf⟩ := hv
  dsimp only at hr hw hfull hbuf
  unfold Length at h
  unfold IsFull
  dsimp only at h ⊢
  cases fl with
  | true => rfl
  | false =>
    exfalso
    simp only [Bool.false_eq_true, if_false] at h
    split_ifs at h <;> omega

/-! ## The claims -/

/-- C1: for a buffer freshly created with capacity `C > 0`, writing a
payload of `N` bytes with `0 < N ≤ C` succeeds completely with no error,
then reading `N` bytes returns exactly the written bytes in order with no
error, and afterwards `Length` is `0`. -/
theorem C1_roundtrip (C N : Nat) (p : List Nat) (hC : 0 < C) (hN : 0 < N)
    (hNC : N ≤ C) (hp : p.length = N) :
    ∃ s1 s2, Write (New C) p = (N, none, s1) ∧
      Read s1 N = some (p, none, s2) ∧ Length s2 = 0 := by
  have hv : Valid (New C) := valid_New C hC
  obtain ⟨h1, h2, hv1, hsz1, hc1⟩ := write_props (New C) p hv
  have hfree : Free (New C) = C := by
    simp [Free, New]
  have hcont0 : contents (New C) = [] := by
    simp [contents, New]
  rw [hfree] at h1 h2 hc1
  have hminN : min p.length C = N := by omega
  rw [hminN] at h1 hc1
  rw [if_neg (by omega)] at h2
  rw [hcont0, List.nil_append] at hc1
  have hpN : p.take N = p := by
    rw [← hp]
    exact List.take_length p
  rw [hpN] at hc1
  have hwr : Write (New C) p = (N, none, (Write (New C) p).2.2) := by
    rw [← h1, ← h2]
  have hL1 : Length (Write (New C) p).2.2 = N := by
    have h3 := contents_length _ hv1
    rw [hc1, hp] at h3
    exact h3.symm
  obtain ⟨s2, hrd, hv2, hsz2, hc2⟩ := read_props (Write (New C) p).2.2 N hv1
  rw [hL1, hc1, Nat.min_self, hpN] at hrd
  rw [if_neg (fun hcontra => absurd hcontra.2 (by omega))] at hrd
  refine ⟨(Write (New C) p).2.2, s2, hwr, hrd, ?_⟩
  rw [hL1, hc1, Nat.min_self] at hc2
  have hdrop : p.drop N = [] := List.drop_eq_nil_of_le (by omega)
  rw [hdrop] at hc2
  have h4 := contents_length s2 hv2
  rw [hc2] at h4
  exact h4.symm

theorem C1_witness :
    (0 < 3 ∧ 0 < 2 ∧ 2 ≤ 3 ∧ ([10, 20] : List Nat).length = 2) ∧
    (∃ s1 s2, Write (New 3) [10, 20] = (2, none, s1) ∧
      Read s1 2 = some ([10, 20], none, s2) ∧ Length s2 = 0) :=
  ⟨⟨by decide, by decide, by decide, by decide⟩,
    C1_roundtrip 3 2 [10, 20] (by decide) (by decide) (by decide) (by decide)⟩

/-- C2: for every capacity `Cap > 0` and every sequence of `Read`,
`ReadByte`, `Write`, `WriteByte`, `Reset` operations run from `New Cap`,
`Length + Free = Cap` holds after every operation (every prefix of a
sequence is itself a sequence, so this covers each intermediate state). -/
theorem C2_length_add_free (Cap : Nat) (ops : List Op) (t : RingBuffer)
    (hC : 0 < Cap) (h : exec ops (New Cap) = some t) :
    Length t + Free t = Cap := by
  obtain ⟨u, hu, hvu, hszu⟩ := exec_valid ops (New Cap) (valid_New Cap hC)
  rw [h] at hu
  have htu : t = u := by
    injection hu
  subst htu
  have h2 := length_add_free t hvu
  have h3 : (New Cap).size = Cap := rfl
  omega

theorem C2_witness :
    (0 < 2 ∧ exec [Op.write [5], Op.readByte] (New 2)
        = some ⟨[5, 0], 2, 1, 1, false⟩) ∧
    Length ⟨[5, 0], 2, 1, 1, false⟩ + Free ⟨[5, 0], 2, 1, 1, false⟩ = 2 :=
  ⟨⟨by decide, by decide⟩,
    C2_length_add_free 2 [Op.write [5], Op.readByte] _ (by decide) (by decide)⟩

/-- C3: every operation applied to a state satisfying the invariant
(cursors in `[0, capacity)`, the full flag forcing cursor equality, and
the storage of length `capacity`) completes and yields a state satisfying
the same invariant, so full, empty and cursors-unequal stay mutually
exclusive. -/
theorem C3_invariant_preserved (op : Op) (s : RingBuffer) (hv : Valid s) :
    ∃ t, step op s = some t ∧ Valid t := by
  obtain ⟨t, h1, h2, _⟩ := step_valid op s hv
  exact ⟨t, h1, h2⟩

theorem C3_witness :
    Valid (New 3) ∧ ∃ t, step (Op.write [1]) (New 3) = some t ∧ Valid t :=
  ⟨by decide, C3_invariant_preserved (Op.write [1]) (New 3) (by decide)⟩

/-- C4: on a valid state with `0 < Free s` and a payload strictly larger
than the free space, `Write` commits exactly the first `Free s` bytes,
returns the count `Free s` together with `ErrFull`, and leaves the buffer
full. -/
theorem C4_truncated_write (s : RingBuffer) (p : List Nat) (hv : Valid s)
    (hF : 0 < Free s) (hp : Free s < p.length) :
    ∃ t, Write s p = (Free s, some GoErr.errFull, t) ∧ IsFull t = true ∧
      contents t = contents s ++ p.take (Free s) := by
  obtain ⟨h1, h2, hvt, hszt, hct⟩ := write_props s p hv
  have hmin : min p.length (Free s) = Free s := by omega
  rw [hmin] at h1 hct
  rw [if_pos hp] at h2
  have hwr : Write s p = (Free s, some GoErr.errFull, (Write s p).2.2) := by
    rw [← h1, ← h2]
  refine ⟨(Write s p).2.2, hwr, ?_, hct⟩
  have hLt : Length (Write s p).2.2 = s.size := by
    have h3 := contents_length _ hvt
    rw [hct, List.length_append, List.length_take] at h3
    have h4 := contents_length s hv
    have h5 := length_add_free s hv
    omega
  exact isFull_of_length_eq_size _ hvt (by rw [hLt, hszt])

theorem C4_witness :
    (Valid (New 2) ∧ 0 < Free (New 2) ∧
      Free (New 2) < ([1, 2, 3] : List Nat).length) ∧
    (∃ t, Write (New 2) [1, 2, 3] = (Free (New 2), some GoErr.errFull, t) ∧
      IsFull t = true ∧
      contents t = contents (New 2) ++ [1, 2, 3].take (Free (New 2))) :=
  ⟨⟨by decide, by decide, by decide⟩,
    C4_truncated_write (New 2) [1, 2, 3] (by decide) (by decide) (by decide)⟩

/-- C5 counterexample: the zero-capacity buffer `New 0` has
`Length = Capacity` (both are `0`), yet a non-empty `Write` does not leave
the state unchanged: it flips the full flag (and returns
`(0, ErrFull)`), so the claim fails as stated over every buffer state. -/
theorem C5_counterexample :
    Length (New 0) = Capacity (New 0) ∧ (Write (New 0) [42]).2.2 ≠ New 0 := by
  decide

/-- C5 amended: on every valid state (capacity positive) with
`Length = Capacity`, `Write` of any non-empty payload returns
`(0, ErrFull)` and leaves the state unchanged, and `WriteByte` returns
`ErrFull` without mutation. -/
theorem C5_full_write_rejected (s : RingBuffer) (hv : Valid s)
    (hfullcap : Length s = Capacity s) :
    (∀ p, p ≠ [] → Write s p = (0, some GoErr.errFull, s)) ∧
    (∀ c, WriteByte s c = some (some GoErr.errFull, s)) := by
  have hfl : s.isFull = true :=
    isFull_of_length_eq_size s hv hfullcap
  have hrw : s.r = s.w := hv.2.2.1 hfl
  constructor
  · intro p hp
    unfold Write
    rw [if_neg (fun h => hp (List.length_eq_zero.mp h)), if_pos hfl]
  · intro c
    unfold WriteByte
    rw [if_pos ⟨hrw.symm, hfl⟩]

theorem C5_witness :
    (Valid ⟨[7], 1, 0, 0, true⟩ ∧
      Length ⟨[7], 1, 0, 0, true⟩ = Capacity ⟨[7], 1, 0, 0, true⟩) ∧
    Write ⟨[7], 1, 0, 0, true⟩ [9] = (0, some GoErr.errFull, ⟨[7], 1, 0, 0, true⟩) ∧
    WriteByte ⟨[7], 1, 0, 0, true⟩ 9
      = some (some GoErr.errFull, ⟨[7], 1, 0, 0, true⟩) :=
  ⟨⟨by decide, by decide⟩,
    (C5_full_write_rejected ⟨[7], 1, 0, 0, true⟩ (by decide) (by decide)).1
      [9] (by decide),
    (C5_full_write_rejected ⟨[7], 1, 0, 0, true⟩ (by decide) (by decide)).2 9⟩

/-- C6 counterexample: after `Write (New 0) [42]` the buffer has zero
unread bytes (`Length = 0`), yet `Read` with a non-empty destination and
`ReadByte` fault (`none` models the Go division-by-zero and
index-out-of-range run-time errors) instead of returning `ErrEmpty` with
no effect, so the claim fails as stated over every buffer state. -/
theorem C6_counterexample :
    Length (Write (New 0) [42]).2.2 = 0 ∧
    Read (Write (New 0) [42]).2.2 1 = none ∧
    ReadByte (Write (New 0) [42]).2.2 = none := by
  decide

/-- C6 amended: on every valid state (capacity positive) with zero unread
bytes, `Read` with a non-empty destination and `ReadByte` return
`ErrEmpty` and leave the state completely unchanged. -/
theorem C6_empty_read_rejected (s : RingBuffer) (hv : Valid s)
    (hempty : Length s = 0) :
    (∀ m, 0 < m → Read s m = some ([], some GoErr.errEmpty, s)) ∧
    ReadByte s = some (0, some GoErr.errEmpty, s) := by
  have hr := hv.1
  have hfl : s.isFull = false := by
    cases hf : s.isFull with
    | false => rfl
    | true =>
      exfalso
      have hrw := hv.2.2.1 hf
      unfold Length at hempty
      rw [if_pos hrw.symm, hf] at hempty
      simp only [if_true] at hempty
      omega
  have hwr : s.w = s.r := by
    by_contra hne
    unfold Length at hempty
    rw [if_neg hne] at hempty
    split_ifs at hempty <;> omega
  constructor
  · intro m hm
    unfold Read
    rw [if_neg (by omega), if_pos ⟨hwr, hfl⟩]
  · unfold ReadByte
    rw [if_pos ⟨hwr, hfl⟩]

theorem C6_witness :
    (Valid (New 2) ∧ Length (New 2) = 0) ∧
    Read (New 2) 1 = some ([], some GoErr.errEmpty, New 2) ∧
    ReadByte (New 2) = some (0, some GoErr.errEmpty, New 2) :=
  ⟨⟨by decide, by decide⟩,
    (C6_empty_read_rejected (New 2) (by decide) (by decide)).1 1 (by decide),
    (C6_empty_read_rejected (New 2) (by decide) (by decide)).2⟩

/-- C7 counterexample: on the zero-capacity buffer `New 0`, `WriteByte`
faults (`none` models the Go index-out-of-range run-time error
`r.buf[r.w] = c` with an empty backing slice), so not every operation on
every capacity completes without a fault. -/
theorem C7_counterexample : WriteByte (New 0) 42 = none := by
  decide

/-- C7 amended: for every capacity `Cap > 0`, every sequence of operations
run from `New Cap` completes without a run-time fault, and zero-length
`Read` and `Write` requests are no-ops returning `(0, nil)` on every
state. -/
theorem C7_no_fault_pos_capacity (Cap : Nat) (ops : List Op) (hC : 0 < Cap) :
    (exec ops (New Cap)).isSome = true ∧
    (∀ s : RingBuffer, Read s 0 = some ([], none, s)) ∧
    (∀ s : RingBuffer, Write s [] = (0, none, s)) := by
  refine ⟨?_, ?_, ?_⟩
  · obtain ⟨t, ht, _, _⟩ := exec_valid ops (New Cap) (valid_New Cap hC)
    rw [ht]
    rfl
  · intro s
    rfl
  · intro s
    rfl

theorem C7_witness :
    0 < 1 ∧
    (exec [Op.writeByte 3, Op.read 5, Op.write [1, 2], Op.readByte, Op.reset]
      (New 1)).isSome = true :=
  ⟨by decide,
    (C7_no_fault_pos_capacity 1
      [Op.writeByte 3, Op.read 5, Op.write [1, 2], Op.readByte, Op.reset]
      (by decide)).1⟩

/-- C8 counterexample: immediately after `New 0` the full flag is clear,
so `IsFull` returns `false`, not `true` as the claim states. -/
theorem C8_counterexample : IsFull (New 0) = false := by
  decide

/-- C8 amended: a buffer created with `New 0` is degenerate: it has
`Length = 0` and `Free = 0` (nothing to read and no room to write) in
every state reachable without a fault, and `IsEmpty` is `true` right
after construction, but `IsFull` is `false` right after construction (the
flag only becomes `true` after a non-empty `Write`). -/
theorem C8_zero_capacity (ops : List Op) (t : RingBuffer)
    (h : exec ops (New 0) = some t) :
    IsFull (New 0) = false ∧ IsEmpty (New 0) = true ∧
    IsFull (Write (New 0) [42]).2.2 = true ∧
    Length t = 0 ∧ Free t = 0 ∧ Capacity t = 0 := by
  have hz0 : ZeroState (New 0) := ⟨rfl, rfl, rfl, rfl⟩
  have hz := exec_zero ops (New 0) hz0 t h
  obtain ⟨h1, h2⟩ := zero_length_free t hz
  exact ⟨rfl, rfl, by decide, h1, h2, hz.2.1⟩

theorem C8_witness :
    exec [Op.write [42]] (New 0) = some ⟨[], 0, 0, 0, true⟩ ∧
    (IsFull (New 0) = false ∧ IsEmpty (New 0) = true ∧
      IsFull (Write (New 0) [42]).2.2 = true ∧
      Length ⟨[], 0, 0, 0, true⟩ = 0 ∧ Free ⟨[], 0, 0, 0, true⟩ = 0 ∧
      Capacity ⟨[], 0, 0, 0, true⟩ = 0) :=
  ⟨by decide, C8_zero_capacity [Op.write [42]] ⟨[], 0, 0, 0, true⟩ (by decide)⟩

/-- C9: on every valid state, `Bytes` returns exactly the unread bytes in
logical order (oldest to newest, reassembled across the wrap boundary),
and its length is `Length s`.  In the model `Bytes` is a pure function of
the state that returns a fresh list, mirroring that the Go method
allocates a new slice and never moves `readPos` or touches any other
field, so repeated calls trivially agree and `Length`/`Free` are
unchanged. -/
theorem C9_bytes_peek (s : RingBuffer) (hv : Valid s) :
    Bytes s = contents s ∧ (Bytes s).length = Length s := by
  have h := bytes_eq_contents s hv
  refine ⟨h, ?_⟩
  rw [h]
  exact contents_length s hv

theorem C9_witness :
    Valid ⟨[9, 0, 3, 4], 4, 2, 1, false⟩ ∧
    (Bytes ⟨[9, 0, 3, 4], 4, 2, 1, false⟩
        = contents ⟨[9, 0, 3, 4], 4, 2, 1, false⟩ ∧
      (Bytes ⟨[9, 0, 3, 4], 4, 2, 1, false⟩).length
        = Length ⟨[9, 0, 3, 4], 4, 2, 1, false⟩) :=
  ⟨by decide, C9_bytes_peek ⟨[9, 0, 3, 4], 4, 2, 1, false⟩ (by decide)⟩

/-- C10: `WriteString` returns the same count and error and produces the
same resulting state as `Write` applied to the byte sequence of the
string.  The Go source reinterprets the string header as a byte-slice
header without copying; since a Go string is exactly its byte array, the
slice so obtained holds precisely the bytes of the string, which is what
`specStringBytes` (the byte sequence named by the spec) denotes. -/
theorem C10_writeString_delegates (rb : RingBuffer) (s : String) :
    WriteString rb s = Write rb (specStringBytes s) := rfl

end RingBuf
